import Mathlib

/-!
Verification of the convolution engine specified for the HRF tutorial
notebook (src/m5/hrf_tutorial.ipynb).  The notebook builds impulse-train
time series with the idiom `np.array([0]*a + [1] + [0]*b)`, sums them
element-wise with numpy `+`, and convolves them with a fixed HRF kernel
via `np.convolve` (full mode).  The convolution primitive itself and the
spec-level constructors `makeImpulseTrain` / `sumSequences` are not
implemented inside the repository, so they are modelled here from the
specification; sequences of reals are embedded as lists of rationals,
which makes every operation exactly computable.
-/

namespace Hrf

/-- Error taxonomy of the specification: `InvalidInput` for an empty
sequence handed to convolution, `IndexOutOfRange` for an onset index
outside the impulse-train range, `LengthMismatch` for summing sequences
of unequal lengths. -/
inductive SpecError where
  | InvalidInput
  | IndexOutOfRange
  | LengthMismatch
  deriving DecidableEq, Repr

instance instDecEqExcept {ε α : Type} [DecidableEq ε] [DecidableEq α] :
    DecidableEq (Except ε α) := fun x y =>
  match x, y with
  | .ok a, .ok b => decidable_of_iff (a = b) (by simp)
  | .ok _, .error _ => isFalse fun h => Except.noConfusion h
  | .error _, .ok _ => isFalse fun h => Except.noConfusion h
  | .error e, .error f => decidable_of_iff (e = f) (by simp)

/-- Signed-index access into a sequence, reading 0 outside the valid
index range (the zero-padding convention of full convolution). -/
def atD (s : List ℚ) (i : ℤ) : ℚ :=
  if i < 0 then 0 else s.getD i.toNat 0

/-- Modelled from the spec: entry n of the full discrete linear
convolution computed by the library primitive np.convolve, which the
notebook calls but whose implementation is not part of the repository.
The spec gives the n-th output as the sum over k of
kernel at k times signal at n minus k, with the signal read as 0
outside its index range. -/
def convEntry (signal kernel : List ℚ) (n : ℕ) : ℚ :=
  ∑ k ∈ Finset.range kernel.length, kernel.getD k 0 * atD signal ((n : ℤ) - (k : ℤ))

/-- Modelled from the spec: the full-mode convolution result, of length
signal length plus kernel length minus one. -/
def fullConv (signal kernel : List ℚ) : List ℚ :=
  (List.range (signal.length + kernel.length - 1)).map (convEntry signal kernel)

/-- Modelled from the spec: the operation convolve of the Convolution
Engine.  Fails with InvalidInput when either sequence is empty,
otherwise returns the full convolution. -/
def convolve (signal kernel : List ℚ) : Except SpecError (List ℚ) :=
  if signal.length = 0 ∨ kernel.length = 0 then .error .InvalidInput
  else .ok (fullConv signal kernel)

/-- The indicator sequence of a set of onset indices over a given
number of samples: 1 at each onset index, 0 elsewhere. -/
def impulseList (len : ℕ) (onsets : Finset ℕ) : List ℚ :=
  (List.range len).map fun i => if i ∈ onsets then 1 else 0

/-- Modelled from the spec: the operation makeImpulseTrain of the
Convolution Engine.  Onset indices are natural numbers here, so the
only way one can lie outside the valid sample range is by being at
least the length; in that case the call fails with IndexOutOfRange. -/
def makeImpulseTrain (len : ℕ) (onsets : Finset ℕ) : Except SpecError (List ℚ) :=
  if ∀ i ∈ onsets, i < len then .ok (impulseList len onsets)
  else .error .IndexOutOfRange

/-- Modelled from the spec: the operation sumSequences of the
Convolution Engine.  The spec makes a non-empty input list a
precondition; the empty list is mapped to InvalidInput, an error the
claims never exercise.  On sequences of matching length the i-th output
is the sum over all inputs of their i-th entries. -/
def sumSequences (seqs : List (List ℚ)) : Except SpecError (List ℚ) :=
  match seqs with
  | [] => .error .InvalidInput
  | s :: rest =>
    if ∀ t ∈ rest, t.length = s.length then
      .ok ((List.range s.length).map fun i => (seqs.map fun t => t.getD i 0).sum)
    else .error .LengthMismatch

/-- The HRF kernel hard-coded in the notebook (cell defining hrf). -/
def hrf : List ℚ :=
  [0, 0, 1, 5, 8, 9.2, 9, 7, 4, 2, 0, -1, -1, -0.8, -0.7, -0.5, -0.3, -0.1, 0, 0]

/-- The notebook idiom building a stimulus time series: a zeros, a
single one, then b zeros, as in np.array([0]*10 + [1] + [0]*50). -/
def zerosOneZeros (a b : ℕ) : List ℚ :=
  List.replicate a 0 ++ [1] ++ List.replicate b 0

/-- first_light_stim_time_series from the notebook: onset at index 10
in 61 samples. -/
def first_light_stim_time_series : List ℚ := zerosOneZeros 10 50

/-- second_light_stim_time_series (second version) from the notebook:
onset at index 16 in 61 samples. -/
def second_light_stim_time_series : List ℚ := zerosOneZeros 16 44

/-- third_light_stim_time_series from the notebook: onset at index 13
in 61 samples. -/
def third_light_stim_time_series : List ℚ := zerosOneZeros 13 47

/-! ### Basic access lemmas -/

theorem getD_range_map (f : ℕ → ℚ) (n i : ℕ) :
    ((List.range n).map f).getD i 0 = if i < n then f i else 0 := by
  by_cases h : i < n
  · rw [List.getD_eq_getElem _ _ (by simpa using h)]
    simp [h]
  · rw [List.getD_eq_default _ _ (by simpa using Nat.le_of_not_lt h)]
    simp [h]

theorem atD_natCast (s : List ℚ) (n : ℕ) : atD s (n : ℤ) = s.getD n 0 := by
  simp [atD]

theorem atD_neg (s : List ℚ) (i : ℤ) (h : i < 0) : atD s i = 0 := by
  simp [atD, h]

theorem atD_sub_of_le (s : List ℚ) (n k : ℕ) (h : k ≤ n) :
    atD s ((n : ℤ) - (k : ℤ)) = s.getD (n - k) 0 := by
  have : (n : ℤ) - (k : ℤ) = ((n - k : ℕ) : ℤ) := by omega
  rw [this, atD_natCast]

theorem fullConv_length (signal kernel : List ℚ) :
    (fullConv signal kernel).length = signal.length + kernel.length - 1 := by
  simp [fullConv]

theorem fullConv_getD (signal kernel : List ℚ) (n : ℕ)
    (h : n < signal.length + kernel.length - 1) :
    (fullConv signal kernel).getD n 0 = convEntry signal kernel n := by
  rw [fullConv, getD_range_map, if_pos h]

/-! ### Truncation and commutativity of the convolution sum -/

theorem convEntry_trunc (signal kernel : List ℚ) (n : ℕ) :
    convEntry signal kernel n =
      ∑ k ∈ Finset.range (n + 1), kernel.getD k 0 * signal.getD (n - k) 0 := by
  have hK : kernel.length ≤ max kernel.length (n + 1) := le_max_left _ _
  have hN : n + 1 ≤ max kernel.length (n + 1) := le_max_right _ _
  have h1 : convEntry signal kernel n =
      ∑ k ∈ Finset.range (max kernel.length (n + 1)),
        kernel.getD k 0 * atD signal ((n : ℤ) - (k : ℤ)) := by
    refine Finset.sum_subset (Finset.range_subset.mpr hK) ?_
    intro k _ hk
    rw [Finset.mem_range, not_lt] at hk
    rw [List.getD_eq_default _ _ hk, zero_mul]
  have h2 : (∑ k ∈ Finset.range (n + 1), kernel.getD k 0 * signal.getD (n - k) 0) =
      ∑ k ∈ Finset.range (max kernel.length (n + 1)),
        kernel.getD k 0 * atD signal ((n : ℤ) - (k : ℤ)) := by
    rw [show (∑ k ∈ Finset.range (n + 1), kernel.getD k 0 * signal.getD (n - k) 0) =
        ∑ k ∈ Finset.range (n + 1), kernel.getD k 0 * atD signal ((n : ℤ) - (k : ℤ)) from
      Finset.sum_congr rfl fun k hk => by
        rw [Finset.mem_range] at hk
        rw [atD_sub_of_le _ _ _ (Nat.lt_succ_iff.mp hk)]]
    refine Finset.sum_subset (Finset.range_subset.mpr hN) ?_
    intro k _ hk
    rw [Finset.mem_range, not_lt] at hk
    rw [atD_neg _ _ (by omega), mul_zero]
  rw [h1, h2]

theorem convEntry_comm (a b : List ℚ) (n : ℕ) :
    convEntry a b n = convEntry b a n := by
  rw [convEntry_trunc, convEntry_trunc]
  rw [← Finset.sum_range_reflect (fun k => b.getD k 0 * a.getD (n - k) 0) (n + 1)]
  refine Finset.sum_congr rfl fun k hk => ?_
  rw [Finset.mem_range, Nat.lt_succ_iff] at hk
  have h1 : n + 1 - 1 - k = n - k := by omega
  have h2 : n - (n - k) = k := by omega
  rw [h1, h2, mul_comm]

theorem fullConv_comm (a b : List ℚ) : fullConv a b = fullConv b a := by
  unfold fullConv
  rw [Nat.add_comm a.length b.length]
  exact List.map_congr_left fun n _ => convEntry_comm a b n

/-! ### Zero and additive behaviour of the convolution sum -/

theorem atD_replicate_zero (N : ℕ) (i : ℤ) : atD (List.replicate N (0 : ℚ)) i = 0 := by
  unfold atD
  split
  · rfl
  · rcases Nat.lt_or_ge i.toNat N with h | h
    · rw [List.getD_eq_getElem _ _ (by simpa using h), List.getElem_replicate]
    · rw [List.getD_eq_default _ _ (by simpa using h)]

theorem convEntry_zero_signal (kernel : List ℚ) (N n : ℕ) :
    convEntry (List.replicate N (0 : ℚ)) kernel n = 0 := by
  unfold convEntry
  refine Finset.sum_eq_zero fun k _ => ?_
  rw [atD_replicate_zero, mul_zero]

theorem convEntry_add (s1 s2 s12 kernel : List ℚ)
    (h : ∀ i : ℤ, atD s12 i = atD s1 i + atD s2 i) (n : ℕ) :
    convEntry s12 kernel n = convEntry s1 kernel n + convEntry s2 kernel n := by
  unfold convEntry
  rw [← Finset.sum_add_distrib]
  refine Finset.sum_congr rfl fun k _ => ?_
  rw [h, mul_add]

/-! ### Impulse trains -/

theorem impulseList_length (len : ℕ) (onsets : Finset ℕ) :
    (impulseList len onsets).length = len := by
  simp [impulseList]

theorem impulseList_getD (len : ℕ) (onsets : Finset ℕ) (i : ℕ) :
    (impulseList len onsets).getD i 0 =
      if i < len then (if i ∈ onsets then 1 else 0) else 0 := by
  rw [impulseList, getD_range_map]

theorem convEntry_single_impulse (kernel : List ℚ) (N i : ℕ) (hi : i < N) (n : ℕ) :
    convEntry (impulseList N {i}) kernel n = atD kernel ((n : ℤ) - (i : ℤ)) := by
  rw [convEntry_comm]
  unfold convEntry
  rw [impulseList_length]
  rw [Finset.sum_eq_single_of_mem i (Finset.mem_range.mpr hi)]
  · rw [impulseList_getD, if_pos hi, if_pos (Finset.mem_singleton_self i), one_mul]
  · intro k _ hk
    rw [impulseList_getD]
    rcases Nat.lt_or_ge k N with h | h
    · rw [if_pos h, if_neg (by simpa using hk), zero_mul]
    · rw [if_neg (by omega), zero_mul]

theorem impulseList_singleton_eq_zerosOneZeros (a b : ℕ) :
    impulseList (a + 1 + b) {a} = zerosOneZeros a b := by
  induction a with
  | zero =>
    rw [impulseList, zerosOneZeros]
    rw [show 0 + 1 + b = b + 1 from by omega, List.range_succ_eq_map]
    rw [List.map_cons, List.map_map]
    rw [show ((fun i => if i ∈ ({0} : Finset ℕ) then (1 : ℚ) else 0) ∘ Nat.succ) =
        fun _ => (0 : ℚ) from funext fun j => by simp]
    simp [List.map_const']
  | succ a ih =>
    have tail : List.map ((fun i => if i ∈ ({a + 1} : Finset ℕ) then (1 : ℚ) else 0) ∘ Nat.succ)
        (List.range (a + 1 + b)) = impulseList (a + 1 + b) {a} := by
      rw [impulseList]
      refine List.map_congr_left fun j _ => ?_
      simp
    rw [impulseList, show a + 1 + 1 + b = (a + 1 + b) + 1 from by omega,
      List.range_succ_eq_map, List.map_cons, List.map_map, tail, ih]
    rw [zerosOneZeros, zerosOneZeros, List.replicate_succ]
    simp

/-! ### Summation of sequences -/

theorem sumSequences_ok (s : List ℚ) (rest : List (List ℚ))
    (h : ∀ t ∈ rest, t.length = s.length) :
    sumSequences (s :: rest) =
      .ok ((List.range s.length).map fun i => ((s :: rest).map fun t => t.getD i 0).sum) := by
  rw [sumSequences, if_pos h]

theorem indicator_sum_disjoint (i : ℕ) (ss : List (Finset ℕ))
    (hdisj : ss.Pairwise Disjoint) :
    (ss.map fun s => if i ∈ s then (1 : ℚ) else 0).sum =
      if i ∈ ss.foldr (fun s t => s ∪ t) ∅ then 1 else 0 := by
  induction ss with
  | nil => simp
  | cons s ss ih =>
    rw [List.pairwise_cons] at hdisj
    obtain ⟨hhead, htail⟩ := hdisj
    rw [List.map_cons, List.sum_cons, List.foldr_cons, ih htail]
    by_cases hs : i ∈ s
    · have hrest : i ∉ ss.foldr (fun s t => s ∪ t) ∅ := by
        intro hmem
        have : ∃ t ∈ ss, i ∈ t := by
          clear ih htail hhead
          induction ss with
          | nil => simp at hmem
          | cons u us ihu =>
            rw [List.foldr_cons, Finset.mem_union] at hmem
            rcases hmem with h | h
            · exact ⟨u, List.mem_cons_self u us, h⟩
            · obtain ⟨t, ht, hit⟩ := ihu h
              exact ⟨t, List.mem_cons_of_mem u ht, hit⟩
        obtain ⟨t, ht, hit⟩ := this
        exact (Finset.disjoint_left.mp (hhead t ht)) hs hit
      rw [if_pos hs, if_neg hrest, if_pos (Finset.mem_union_left _ hs), add_zero]
    · rw [if_neg hs, zero_add]
      by_cases hr : i ∈ ss.foldr (fun s t => s ∪ t) ∅
      · rw [if_pos hr, if_pos (Finset.mem_union_right _ hr)]
      · rw [if_neg hr, if_neg (by simp [hs, hr])]

/-! ### Claim theorems -/

/-- C2: for a signal of length N at least 1 and a kernel of length K at
least 1, convolve returns a sequence of length exactly N + K - 1 whose
n-th entry, for every n below N + K - 1, is the sum over k below K of
kernel at k times signal at n minus k, the signal read as 0 outside its
index range (full convolution mode). -/
theorem convolve_full_mode (signal kernel : List ℚ)
    (hs : 1 ≤ signal.length) (hk : 1 ≤ kernel.length) :
    ∃ r, convolve signal kernel = .ok r ∧
      r.length = signal.length + kernel.length - 1 ∧
      ∀ n < signal.length + kernel.length - 1,
        r.getD n 0 = ∑ k ∈ Finset.range kernel.length,
          kernel.getD k 0 * atD signal ((n : ℤ) - (k : ℤ)) := by
  refine ⟨fullConv signal kernel, ?_, fullConv_length _ _, ?_⟩
  · rw [convolve, if_neg (by omega)]
  · intro n hn
    rw [fullConv_getD _ _ _ hn, convEntry]

theorem convolve_full_mode_witness :
    1 ≤ ([(1 : ℚ), 2]).length ∧ 1 ≤ ([(3 : ℚ)]).length ∧
    ∃ r, convolve [(1 : ℚ), 2] [(3 : ℚ)] = .ok r ∧
      r.length = ([(1 : ℚ), 2]).length + ([(3 : ℚ)]).length - 1 ∧
      ∀ n < ([(1 : ℚ), 2]).length + ([(3 : ℚ)]).length - 1,
        r.getD n 0 = ∑ k ∈ Finset.range ([(3 : ℚ)]).length,
          ([(3 : ℚ)]).getD k 0 * atD [(1 : ℚ), 2] ((n : ℤ) - (k : ℤ)) :=
  ⟨by decide, by decide, convolve_full_mode [1, 2] [3] (by decide) (by decide)⟩

/-- C4: convolution is commutative. For every pair of non-empty
sequences a and b, convolve a b and convolve b a succeed with the very
same result sequence. -/
theorem convolve_commutative (a b : List ℚ) (ha : 1 ≤ a.length) (hb : 1 ≤ b.length) :
    ∃ r, convolve a b = .ok r ∧ convolve b a = .ok r := by
  refine ⟨fullConv a b, ?_, ?_⟩
  · rw [convolve, if_neg (by omega)]
  · rw [convolve, if_neg (by omega), fullConv_comm]

theorem convolve_commutative_witness :
    ∃ r, convolve [(1 : ℚ), 2] [(3 : ℚ), 4, 5] = .ok r ∧
      convolve [(3 : ℚ), 4, 5] [(1 : ℚ), 2] = .ok r :=
  convolve_commutative [1, 2] [3, 4, 5] (by decide) (by decide)

/-- C7: convolve fails with InvalidInput exactly when one of the two
inputs has length 0, and succeeds on all inputs of length at least 1. -/
theorem convolve_invalidInput_iff (signal kernel : List ℚ) :
    (convolve signal kernel = .error .InvalidInput ↔
      signal.length = 0 ∨ kernel.length = 0) ∧
    (1 ≤ signal.length → 1 ≤ kernel.length → ∃ r, convolve signal kernel = .ok r) := by
  refine ⟨⟨?_, ?_⟩, ?_⟩
  · intro h
    by_contra hcon
    rw [convolve, if_neg hcon] at h
    exact Except.noConfusion h
  · intro h
    rw [convolve, if_pos h]
  · intro hs hk
    exact ⟨fullConv signal kernel, by rw [convolve, if_neg (by omega)]⟩

theorem convolve_invalidInput_iff_witness :
    (convolve ([] : List ℚ) [(1 : ℚ)] = .error .InvalidInput) ∧
    ∃ r, convolve [(1 : ℚ)] [(2 : ℚ)] = .ok r :=
  ⟨(convolve_invalidInput_iff [] [1]).1.mpr (by decide),
    (convolve_invalidInput_iff [1] [2]).2 (by decide) (by decide)⟩

/-- C8: convolving an all-zero signal of length N with any kernel of
length at least 1 yields the all-zero sequence of length N plus kernel
length minus 1. -/
theorem convolve_zero_signal (kernel : List ℚ) (N : ℕ)
    (hN : 1 ≤ N) (hk : 1 ≤ kernel.length) :
    convolve (List.replicate N 0) kernel =
      .ok (List.replicate (N + kernel.length - 1) 0) := by
  rw [convolve, if_neg (by rw [List.length_replicate]; omega)]
  refine congrArg _ ?_
  rw [fullConv, List.length_replicate,
    show convEntry (List.replicate N (0 : ℚ)) kernel = fun _ => (0 : ℚ) from
      funext fun n => convEntry_zero_signal kernel N n]
  simp [List.map_const']

theorem convolve_zero_signal_witness :
    1 ≤ 3 ∧ 1 ≤ hrf.length ∧
    convolve (List.replicate 3 0) hrf = .ok (List.replicate (3 + hrf.length - 1) 0) :=
  ⟨by decide, by decide, convolve_zero_signal hrf 3 (by decide) (by decide)⟩

/-- C5: makeImpulseTrain fails with IndexOutOfRange exactly when some
onset index lies outside the valid range; otherwise it returns a
sequence of the requested length carrying 1 at the onset indices and 0
elsewhere.  Concretely, 61 samples with no onsets give 61 zeros and 5
samples with onsets 0 and 4 give the sequence 1,0,0,0,1. -/
theorem makeImpulseTrain_spec (len : ℕ) (onsets : Finset ℕ) (hlen : 1 ≤ len) :
    (makeImpulseTrain len onsets = .error .IndexOutOfRange ↔ ∃ i ∈ onsets, len ≤ i) ∧
    ((∀ i ∈ onsets, i < len) →
      ∃ s, makeImpulseTrain len onsets = .ok s ∧ s.length = len ∧
        ∀ i < len, s.getD i 0 = if i ∈ onsets then 1 else 0) ∧
    makeImpulseTrain 61 ∅ = .ok (List.replicate 61 0) ∧
    makeImpulseTrain 5 {0, 4} = .ok [1, 0, 0, 0, 1] := by
  refine ⟨⟨?_, ?_⟩, ?_, by decide, by decide⟩
  · intro h
    by_cases hc : ∀ i ∈ onsets, i < len
    · rw [makeImpulseTrain, if_pos hc] at h
      exact Except.noConfusion h
    · push_neg at hc
      obtain ⟨i, hi, hlt⟩ := hc
      exact ⟨i, hi, hlt⟩
  · rintro ⟨i, hi, hle⟩
    rw [makeImpulseTrain, if_neg (fun hc => by have := hc i hi; omega)]
  · intro h
    refine ⟨impulseList len onsets, by rw [makeImpulseTrain, if_pos h],
      impulseList_length _ _, fun i hi => ?_⟩
    rw [impulseList_getD, if_pos hi]

theorem makeImpulseTrain_spec_witness :
    1 ≤ 5 ∧ (∀ i ∈ ({0, 4} : Finset ℕ), i < 5) ∧
    ∃ s, makeImpulseTrain 5 {0, 4} = .ok s ∧ s.length = 5 ∧
      ∀ i < 5, s.getD i 0 = if i ∈ ({0, 4} : Finset ℕ) then 1 else 0 :=
  ⟨by decide, by decide, (makeImpulseTrain_spec 5 {0, 4} (by decide)).2.1 (by decide)⟩

/-- C6: sumSequences on a non-empty collection fails with
LengthMismatch exactly when some input differs in length from the
first; otherwise the result has the common length and each entry is the
sum of the inputs at that index.  On lengths 61 and 50 it raises
LengthMismatch. -/
theorem sumSequences_spec (s : List ℚ) (rest : List (List ℚ)) :
    (sumSequences (s :: rest) = .error .LengthMismatch ↔
      ∃ t ∈ rest, t.length ≠ s.length) ∧
    ((∀ t ∈ rest, t.length = s.length) →
      ∃ r, sumSequences (s :: rest) = .ok r ∧ r.length = s.length ∧
        ∀ i < s.length, r.getD i 0 = ((s :: rest).map fun t => t.getD i 0).sum) ∧
    sumSequences [List.replicate 61 0, List.replicate 50 0] = .error .LengthMismatch := by
  refine ⟨⟨?_, ?_⟩, ?_, by decide⟩
  · intro h
    by_cases hc : ∀ t ∈ rest, t.length = s.length
    · rw [sumSequences_ok s rest hc] at h
      exact Except.noConfusion h
    · push_neg at hc
      exact hc
  · rintro ⟨t, ht, hne⟩
    rw [sumSequences, if_neg (fun hc => hne (hc t ht))]
  · intro h
    refine ⟨_, sumSequences_ok s rest h, by simp, fun i hi => ?_⟩
    rw [getD_range_map, if_pos hi]

theorem sumSequences_spec_witness :
    (∀ t ∈ [[(3 : ℚ), 4]], t.length = ([(1 : ℚ), 2]).length) ∧
    ∃ r, sumSequences [[(1 : ℚ), 2], [(3 : ℚ), 4]] = .ok r ∧
      r.length = ([(1 : ℚ), 2]).length ∧
      ∀ i < ([(1 : ℚ), 2]).length,
        r.getD i 0 = (([[(1 : ℚ), 2], [(3 : ℚ), 4]]).map fun t => t.getD i 0).sum :=
  ⟨by decide, (sumSequences_spec [1, 2] [[3, 4]]).2.1 (by decide)⟩

/-- C9: the notebook idiom of concatenating a zeros, a single one and b
zeros builds exactly the sequence makeImpulseTrain returns for length
a plus 1 plus b with the single onset a: length a plus 1 plus b, entry
1 at index a and 0 at every other index. -/
theorem zerosOneZeros_refines_makeImpulseTrain (a b : ℕ) :
    makeImpulseTrain (a + 1 + b) {a} = .ok (zerosOneZeros a b) ∧
    (zerosOneZeros a b).length = a + 1 + b ∧
    ∀ i, (zerosOneZeros a b).getD i 0 = if i = a then 1 else 0 := by
  have hmk : makeImpulseTrain (a + 1 + b) {a} = .ok (impulseList (a + 1 + b) {a}) := by
    rw [makeImpulseTrain, if_pos]
    intro i hi
    rw [Finset.mem_singleton] at hi
    omega
  refine ⟨by rw [hmk, impulseList_singleton_eq_zerosOneZeros], ?_, ?_⟩
  · rw [← impulseList_singleton_eq_zerosOneZeros, impulseList_length]
  · intro i
    rw [← impulseList_singleton_eq_zerosOneZeros, impulseList_getD]
    by_cases h : i < a + 1 + b
    · rw [if_pos h]
      simp
    · rw [if_neg h, if_neg (by omega)]

/-- C1: convolution is linear over addition of signals.  For
equal-length signals s1 and s2, convolving their element-wise sum with
a kernel gives exactly the element-wise sum of the two individual
convolutions, as full sequences of length N plus kernel length minus
1. -/
theorem convolve_linear (s1 s2 kernel : List ℚ)
    (hlen : s2.length = s1.length) (hs : 1 ≤ s1.length) (hk : 1 ≤ kernel.length) :
    ∃ s12 r1 r2, sumSequences [s1, s2] = .ok s12 ∧
      convolve s1 kernel = .ok r1 ∧ convolve s2 kernel = .ok r2 ∧
      convolve s12 kernel = sumSequences [r1, r2] := by
  have hrest : ∀ t ∈ [s2], t.length = s1.length := by
    intro t ht
    rw [List.mem_singleton] at ht
    rw [ht, hlen]
  refine ⟨_, fullConv s1 kernel, fullConv s2 kernel, sumSequences_ok s1 [s2] hrest,
    by rw [convolve, if_neg (by omega)], by rw [convolve, if_neg (by omega)], ?_⟩
  set s12 := (List.range s1.length).map fun i => ([s1, s2].map fun t => t.getD i 0).sum
    with hs12
  have hlen12 : s12.length = s1.length := by
    rw [hs12, List.length_map, List.length_range]
  have hatD : ∀ i : ℤ, atD s12 i = atD s1 i + atD s2 i := by
    intro i
    by_cases hneg : i < 0
    · rw [atD_neg _ _ hneg, atD_neg _ _ hneg, atD_neg _ _ hneg, add_zero]
    · rw [show atD s12 i = s12.getD i.toNat 0 from by rw [atD, if_neg hneg],
        show atD s1 i = s1.getD i.toNat 0 from by rw [atD, if_neg hneg],
        show atD s2 i = s2.getD i.toNat 0 from by rw [atD, if_neg hneg]]
      rw [hs12, getD_range_map]
      by_cases hi : i.toNat < s1.length
      · rw [if_pos hi]
        simp
      · rw [if_neg hi, List.getD_eq_default _ _ (by omega),
          List.getD_eq_default _ _ (by omega)]
        norm_num
  rw [convolve, if_neg (by omega)]
  rw [sumSequences_ok (fullConv s1 kernel) [fullConv s2 kernel] (by
    intro t ht
    rw [List.mem_singleton] at ht
    rw [ht, fullConv_length, fullConv_length, hlen])]
  refine congrArg _ ?_
  rw [fullConv, hlen12, fullConv_length]
  refine List.map_congr_left fun n hn => ?_
  rw [List.mem_range] at hn
  rw [convEntry_add s1 s2 s12 kernel hatD n]
  rw [List.map_cons, List.map_cons, List.map_nil, List.sum_cons, List.sum_cons,
    List.sum_nil, add_zero]
  rw [fullConv_getD _ _ _ hn, fullConv_getD _ _ _ (by omega)]

theorem convolve_linear_witness :
    ([(0 : ℚ), 1]).length = ([(1 : ℚ), 0]).length ∧
    1 ≤ ([(1 : ℚ), 0]).length ∧ 1 ≤ ([(2 : ℚ), 3]).length ∧
    ∃ s12 r1 r2, sumSequences [[(1 : ℚ), 0], [(0 : ℚ), 1]] = .ok s12 ∧
      convolve [(1 : ℚ), 0] [(2 : ℚ), 3] = .ok r1 ∧
      convolve [(0 : ℚ), 1] [(2 : ℚ), 3] = .ok r2 ∧
      convolve s12 [(2 : ℚ), 3] = sumSequences [r1, r2] :=
  ⟨by decide, by decide, by decide,
    convolve_linear [1, 0] [0, 1] [2, 3] (by decide) (by decide) (by decide)⟩

/-- C3: convolving a single-impulse train with onset i against a kernel
reproduces the kernel on indices i up to i plus kernel length minus 1
and is 0 at every other index; in particular, with the notebook HRF
kernel of length 20 and a 61-sample train with onset 10, the result has
length 80, equals the kernel on indices 10 to 29 and is 0 on indices 0
to 9 and 30 to 79. -/
theorem convolve_single_impulse :
    (∀ (kernel : List ℚ) (N i : ℕ), i < N → 1 ≤ kernel.length →
      ∃ s r, makeImpulseTrain N {i} = .ok s ∧ convolve s kernel = .ok r ∧
        r.length = N + kernel.length - 1 ∧
        (∀ n, i ≤ n → n < i + kernel.length → r.getD n 0 = kernel.getD (n - i) 0) ∧
        (∀ n, n < i ∨ i + kernel.length ≤ n → r.getD n 0 = 0)) ∧
    hrf.length = 20 ∧
    (∃ s r, makeImpulseTrain 61 {10} = .ok s ∧ convolve s hrf = .ok r ∧
      r.length = 80 ∧
      ∀ n < 80, (10 ≤ n ∧ n ≤ 29 → r.getD n 0 = hrf.getD (n - 10) 0) ∧
        (n ≤ 9 ∨ 30 ≤ n → r.getD n 0 = 0)) := by
  have hgen : ∀ (kernel : List ℚ) (N i : ℕ), i < N → 1 ≤ kernel.length →
      ∃ s r, makeImpulseTrain N {i} = .ok s ∧ convolve s kernel = .ok r ∧
        r.length = N + kernel.length - 1 ∧
        (∀ n, i ≤ n → n < i + kernel.length → r.getD n 0 = kernel.getD (n - i) 0) ∧
        (∀ n, n < i ∨ i + kernel.length ≤ n → r.getD n 0 = 0) := by
    intro kernel N i hi hk
    have hok : makeImpulseTrain N {i} = .ok (impulseList N {i}) := by
      rw [makeImpulseTrain, if_pos]
      intro j hj
      rw [Finset.mem_singleton] at hj
      omega
    have hslen : (impulseList N {i}).length = N := impulseList_length _ _
    refine ⟨impulseList N {i}, fullConv (impulseList N {i}) kernel, hok,
      by rw [convolve, if_neg (by omega)], by rw [fullConv_length, hslen], ?_, ?_⟩
    · intro n hin hub
      have hn : n < (impulseList N {i}).length + kernel.length - 1 := by omega
      rw [fullConv_getD _ _ _ hn, convEntry_single_impulse kernel N i hi n,
        atD_sub_of_le _ _ _ hin]
    · intro n hcase
      by_cases hn : n < (impulseList N {i}).length + kernel.length - 1
      · rw [fullConv_getD _ _ _ hn, convEntry_single_impulse kernel N i hi n]
        rcases hcase with h | h
        · exact atD_neg _ _ (by omega)
        · rw [atD_sub_of_le _ _ _ (by omega), List.getD_eq_default _ _ (by omega)]
      · rw [List.getD_eq_default _ _ (by rw [fullConv_length]; omega)]
  refine ⟨hgen, by decide, ?_⟩
  obtain ⟨s, r, h1, h2, h3, h4, h5⟩ := hgen hrf 61 10 (by omega) (by decide)
  have hK : hrf.length = 20 := by decide
  refine ⟨s, r, h1, h2, by rw [h3, hK], ?_⟩
  intro n _
  refine ⟨fun h => h4 n h.1 (by omega), fun h => h5 n ?_⟩
  rcases h with h | h
  · left
    omega
  · right
    omega

theorem convolve_single_impulse_witness :
    (1 : ℕ) < 3 ∧ 1 ≤ ([(5 : ℚ), 7]).length ∧
    ∃ s r, makeImpulseTrain 3 {1} = .ok s ∧ convolve s [(5 : ℚ), 7] = .ok r ∧
      r.length = 3 + ([(5 : ℚ), 7]).length - 1 ∧
      (∀ n, 1 ≤ n → n < 1 + ([(5 : ℚ), 7]).length →
        r.getD n 0 = ([(5 : ℚ), 7]).getD (n - 1) 0) ∧
      (∀ n, n < 1 ∨ 1 + ([(5 : ℚ), 7]).length ≤ n → r.getD n 0 = 0) :=
  ⟨by decide, by decide, convolve_single_impulse.1 [5, 7] 3 1 (by decide) (by decide)⟩

/-- C10: summing impulse trains of a common length whose onset sets are
pairwise disjoint yields exactly the impulse train of the union of the
onset sets: every entry is 0 or 1, with 1 precisely at the union of the
onset indices. -/
theorem sum_disjoint_impulse_trains (L : ℕ) (s0 : Finset ℕ) (sets : List (Finset ℕ))
    (hdisj : (s0 :: sets).Pairwise Disjoint) :
    sumSequences ((s0 :: sets).map (impulseList L)) =
      .ok (impulseList L ((s0 :: sets).foldr (fun s t => s ∪ t) ∅)) := by
  have hlen : ∀ t ∈ sets.map (impulseList L), t.length = (impulseList L s0).length := by
    intro t ht
    rw [List.mem_map] at ht
    obtain ⟨u, _, rfl⟩ := ht
    rw [impulseList_length, impulseList_length]
  rw [List.map_cons, sumSequences_ok _ _ hlen]
  refine congrArg _ ?_
  rw [impulseList_length]
  rw [show impulseList L ((s0 :: sets).foldr (fun s t => s ∪ t) ∅) =
      (List.range L).map fun i =>
        if i ∈ (s0 :: sets).foldr (fun s t => s ∪ t) ∅ then 1 else 0 from rfl]
  refine List.map_congr_left fun i hi => ?_
  rw [List.mem_range] at hi
  rw [← List.map_cons (impulseList L) s0 sets, List.map_map]
  have hmap : (s0 :: sets).map ((fun t : List ℚ => t.getD i 0) ∘ impulseList L) =
      (s0 :: sets).map fun s => if i ∈ s then (1 : ℚ) else 0 :=
    List.map_congr_left fun s _ => by
      show (impulseList L s).getD i 0 = _
      rw [impulseList_getD, if_pos hi]
  rw [hmap, indicator_sum_disjoint i _ hdisj]

theorem sum_disjoint_impulse_trains_witness :
    (([{1}, {3}] : List (Finset ℕ)).Pairwise Disjoint) ∧
    sumSequences (([{1}, {3}] : List (Finset ℕ)).map (impulseList 5)) =
      .ok (impulseList 5 (([{1}, {3}] : List (Finset ℕ)).foldr (fun s t => s ∪ t) ∅)) :=
  ⟨by decide, sum_disjoint_impulse_trains 5 {1} [{3}] (by decide)⟩

end Hrf
